import Mathlib

/-!
Verification of the disjunctive-scheduling core of the ORTools_examples
repository: a shallow embedding of `src/JobShop.py` (model builder, solution
decoder), `src/SchedulingRoman.py` (the batch variant) and the solution
enumeration of `src/EmployeeScheduling.py`, with theorems checked against
the repository's specification.
-/

namespace ORTools

/-! ## Job shop (src/JobShop.py)

`jobs_data` is a list of jobs, each an ordered list of `(machine, duration)`
pairs. `build_model` creates, per task, `start`/`end` integer variables
bounded to `[0, horizon]` and an interval variable linking them, groups the
intervals per machine into `AddNoOverlap` constraints and chains consecutive
tasks of one job with `start[j, t+1] >= end[j, t]`. -/

/-- A task `(machine, duration)`, one entry of a job in `jobs_data`. -/
abbrev Task := Nat × Nat

/-- `jobs_data`: the list of jobs. -/
abbrev JobsData := List (List Task)

/-- Reference `(job_id, task_id)` to a task and its variables. -/
abbrev TaskRef := Nat × Nat

/-- All entries of a list of lists, flattened in loop order
(`for job in jobs_data for task in job`). -/
def allTasks {α : Type} : List (List α) → List α
  | [] => []
  | job :: rest => job ++ allTasks rest

/-- `machines_count = 1 + max(task[0] for job in jobs_data for task in job)`;
Python's `max` raises `ValueError` on an empty iterable, modelled as `none`. -/
def machinesCount (jobs : JobsData) : Option Nat :=
  match (allTasks jobs).map Prod.fst with
  | [] => none
  | m :: ms => some (1 + ms.foldl Nat.max m)

/-- `horizon = sum(task[1] for job in jobs_data for task in job)`. -/
def horizon (jobs : JobsData) : Nat := ((allTasks jobs).map Prod.snd).sum

/-- Machine of task `(j, t)` (out-of-range indices read a dummy task). -/
def taskMachine (jobs : JobsData) (j t : Nat) : Nat := ((jobs.getD j []).getD t (0, 0)).1

/-- Duration of task `(j, t)`. -/
def taskDuration (jobs : JobsData) (j t : Nat) : Nat := ((jobs.getD j []).getD t (0, 0)).2

/-- Indices of the tasks of one job that run on machine `m`, counting task ids
from `tid`: the inner loop of `build_model` appending to `machine_to_intervals`. -/
def tasksOnMachine (m : Nat) : Nat → List Task → List Nat
  | _, [] => []
  | tid, task :: rest =>
      (if task.1 = m then [tid] else []) ++ tasksOnMachine m (tid + 1) rest

/-- `machine_to_intervals[m]` with job ids counted from `jid`. -/
def machineToIntervalsFrom (m : Nat) : Nat → JobsData → List TaskRef
  | _, [] => []
  | jid, job :: rest =>
      (tasksOnMachine m 0 job).map (fun t => (jid, t)) ++
        machineToIntervalsFrom m (jid + 1) rest

/-- The interval variables handed to `AddNoOverlap` for machine `m`. -/
def machineToIntervals (jobs : JobsData) (m : Nat) : List TaskRef :=
  machineToIntervalsFrom m 0 jobs

/-- One `AddNoOverlap` call per machine in `range(machines_count)`, in loop
order; `none` when `machines_count` itself fails (no tasks at all). -/
def noOverlapConstraints (jobs : JobsData) : Option (List (List TaskRef)) :=
  (machinesCount jobs).map fun mc => (List.range mc).map (machineToIntervals jobs)

/-- The `(job_id, task_id)` pairs for which `build_model` issues
`model.Add(start[job_id, task_id + 1] >= end[job_id, task_id])`,
job ids counted from `jid`. -/
def precConstraintsFrom : Nat → JobsData → List TaskRef
  | _, [] => []
  | jid, job :: rest =>
      (List.range (job.length - 1)).map (fun t => (jid, t)) ++
        precConstraintsFrom (jid + 1) rest

/-- The precedence constraints added by `build_model`, in loop order. -/
def precConstraints (jobs : JobsData) : List TaskRef := precConstraintsFrom 0 jobs

/-- All `(job_id, task_id)` pairs of the instance, job ids from `jid`. -/
def taskRefsFrom : Nat → JobsData → List TaskRef
  | _, [] => []
  | jid, job :: rest =>
      (List.range job.length).map (fun t => (jid, t)) ++ taskRefsFrom (jid + 1) rest

/-- All `(job_id, task_id)` pairs of the instance, in loop order. -/
def taskRefs (jobs : JobsData) : List TaskRef := taskRefsFrom 0 jobs

/-- Bounds `(lb, ub)` of every `start_var`: `NewIntVar(lb=0, ub=horizon)`. -/
def startVarBounds (jobs : JobsData) (_r : TaskRef) : Nat × Nat := (0, horizon jobs)

/-- Bounds `(lb, ub)` of every `end_var`: `NewIntVar(lb=0, ub=horizon)`. -/
def endVarBounds (jobs : JobsData) (_r : TaskRef) : Nat × Nat := (0, horizon jobs)

/-- End time of task `(j, t)` under start assignment `s`: the interval variable
`NewIntervalVar(start, size, end)` forces `end = start + duration` in any
solution. -/
def taskEnd (jobs : JobsData) (s : Nat → Nat → Nat) (j t : Nat) : Nat :=
  s j t + taskDuration jobs j t

/-- Two intervals listed in one no-overlap constraint must not overlap:
`start_a >= end_b` or `start_b >= end_a`. -/
def disjointTasks (jobs : JobsData) (s : Nat → Nat → Nat) (a b : TaskRef) : Prop :=
  taskEnd jobs s a.1 a.2 ≤ s b.1 b.2 ∨ taskEnd jobs s b.1 b.2 ≤ s a.1 a.2

instance (jobs : JobsData) (s : Nat → Nat → Nat) : DecidableRel (disjointTasks jobs s) :=
  fun a b => by unfold disjointTasks; exact inferInstance

/-- A start assignment satisfies the built model: every variable within its
`[0, horizon]` bounds, every precedence constraint, and every `AddNoOverlap`
constraint (pairwise disjointness of its listed intervals). -/
def satisfiesModel (jobs : JobsData) (s : Nat → Nat → Nat) : Prop :=
  (∀ r ∈ taskRefs jobs, s r.1 r.2 ≤ horizon jobs ∧ taskEnd jobs s r.1 r.2 ≤ horizon jobs) ∧
  (∀ r ∈ precConstraints jobs, taskEnd jobs s r.1 r.2 ≤ s r.1 (r.2 + 1)) ∧
  (∀ c ∈ (noOverlapConstraints jobs).getD [], c.Pairwise (disjointTasks jobs s))

instance (jobs : JobsData) (s : Nat → Nat → Nat) : Decidable (satisfiesModel jobs s) := by
  unfold satisfiesModel; exact inferInstance

/-- The expressions handed to `AddMaxEquality`: the end of each job's last
task. For an empty job the source's `all_tasks[job_id, len(job) - 1]` lookup
raises `KeyError` instead (see `buildModel`, which yields no model on such an
instance), so the dummy value read here (`end = s j 0`) only concerns
instances for which no model is ever built. -/
def lastEnds (jobs : JobsData) (s : Nat → Nat → Nat) : List Nat :=
  (List.range jobs.length).map fun j => taskEnd jobs s j ((jobs.getD j []).length - 1)

/-- The value of the minimized objective variable `makespan` under `s`. -/
def makespanOf (jobs : JobsData) (s : Nat → Nat → Nat) : Nat :=
  (lastEnds jobs s).foldr Nat.max 0

/-- Total duration of one job. -/
def jobDur (job : List Task) : Nat := (job.map Prod.snd).sum

/-- The serial (back-to-back) schedule: task `(j, t)` starts after all tasks of
earlier jobs and the earlier tasks of its own job. -/
def serialStart (jobs : JobsData) (j t : Nat) : Nat :=
  ((jobs.map jobDur).take j).sum + (((jobs.getD j []).map Prod.snd).take t).sum

/-- What `build_model` returns, flattened to the constraint system it emitted. -/
structure BuiltModel where
  horizon : Nat
  machinesCount : Nat
  noOverlap : List (List TaskRef)
  prec : List TaskRef
  deriving DecidableEq, Repr

/-- The two ways `build_model` dies with an unhandled exception. -/
inductive BuildError where
  /-- Python's `max` raising `ValueError` on an empty iterable at the
  `machines_count` computation (line 103): the instance has no task at all.
  This happens before any constraint is built. -/
  | valueError
  /-- The `all_tasks[job_id, len(job) - 1]` lookup in the `AddMaxEquality`
  comprehension (line 162) raising `KeyError` for the key `(job_id, -1)` of an
  empty job. The constraint loops have already run at this point, but the
  model still never reaches the solver. -/
  | keyError
  deriving DecidableEq, Repr

/-- `build_model(jobs_data)`: fails with `valueError` when there is no task at
all (raised first, at line 103), with `keyError` when some job is empty but a
task exists elsewhere (raised at line 162), and otherwise returns the built
model; nothing else is rejected. -/
def buildModel (jobs : JobsData) : Except BuildError BuiltModel :=
  match machinesCount jobs with
  | none => Except.error BuildError.valueError
  | some mc =>
      if jobs.any List.isEmpty then Except.error BuildError.keyError
      else
        Except.ok { horizon := horizon jobs
                    machinesCount := mc
                    noOverlap := (List.range mc).map (machineToIntervals jobs)
                    prec := precConstraints jobs }

/-- The solver statuses `build_response` distinguishes. -/
inductive Status where
  | OPTIMAL
  | FEASIBLE
  | INFEASIBLE
  | UNKNOWN
  deriving DecidableEq, Repr

/-- The `assigned_task_type` namedtuple `(start, job, index, duration)`. -/
structure AssignedTask where
  start : Nat
  job : Nat
  index : Nat
  duration : Nat
  deriving DecidableEq, Repr

/-- Python's tuple order on `assigned_task_type` fields. -/
def atLE (a b : AssignedTask) : Bool :=
  if a.start ≠ b.start then a.start < b.start
  else if a.job ≠ b.job then a.job < b.job
  else if a.index ≠ b.index then a.index < b.index
  else a.duration ≤ b.duration

/-- Insertion into a list sorted by `atLE` (`list.sort()` in `build_response`). -/
def insertAT (x : AssignedTask) : List AssignedTask → List AssignedTask
  | [] => [x]
  | y :: ys => if atLE x y then x :: y :: ys else y :: insertAT x ys

/-- Sorting by `atLE`. -/
def sortAT : List AssignedTask → List AssignedTask
  | [] => []
  | x :: xs => insertAT x (sortAT xs)

/-- `assigned_jobs[m]` of `build_response`: the tasks of machine `m` in loop
order, each carrying its solved start (the decoder's `solver.Value(...start)`)
and its input duration. -/
def assignedJobs (jobs : JobsData) (value : Nat → Nat → Nat) (m : Nat) : List AssignedTask :=
  (machineToIntervals jobs m).map fun r =>
    { start := value r.1 r.2
      job := r.1
      index := r.2
      duration := taskDuration jobs r.1 r.2 }

/-- `build_response`: on `OPTIMAL`/`FEASIBLE` it reports per machine the
assigned tasks sorted by start (each entry's end printed as
`start + duration`), and as makespan the oracle objective
`solver.ObjectiveValue()` taken verbatim; on any other status the function
falls through and returns nothing. -/
def buildResponse (jobs : JobsData) (mc : Nat) (status : Status)
    (objectiveValue : Nat) (value : Nat → Nat → Nat) :
    Option (Nat × List (List AssignedTask)) :=
  if status = Status.OPTIMAL ∨ status = Status.FEASIBLE then
    some (objectiveValue, (List.range mc).map fun m => sortAT (assignedJobs jobs value m))
  else none

/-- The makespan recomputed from a decoded timetable: the maximum task end
(`start + duration`) over all entries. -/
def recomputedMakespan (tt : List (List AssignedTask)) : Nat :=
  ((allTasks tt).map fun a => a.start + a.duration).foldr Nat.max 0

/-- Spec invariant on a decoded timetable: on each machine row, no two entries
overlap in time. -/
def timetableNoOverlap (tt : List (List AssignedTask)) : Prop :=
  ∀ row ∈ tt, row.Pairwise fun a b =>
    a.start + a.duration ≤ b.start ∨ b.start + b.duration ≤ a.start

instance (tt : List (List AssignedTask)) : Decidable (timetableNoOverlap tt) := by
  unfold timetableNoOverlap; exact inferInstance

/-- Spec invariant on a decoded timetable: consecutive tasks of one job appear
in order, `start[i+1] >= end[i]`. -/
def timetablePrecedence (tt : List (List AssignedTask)) : Prop :=
  ∀ a ∈ allTasks tt, ∀ b ∈ allTasks tt,
    a.job = b.job → b.index = a.index + 1 → a.start + a.duration ≤ b.start

instance (tt : List (List AssignedTask)) : Decidable (timetablePrecedence tt) := by
  unfold timetablePrecedence; exact inferInstance

/-- The three-job reference instance of `src/JobShop.py` (`__main__`). -/
def jobsExample : JobsData :=
  [[(0, 3), (1, 2), (2, 2)], [(0, 2), (2, 1), (1, 4)], [(1, 4), (2, 3)]]

/-- The optimal schedule of the reference instance (makespan 11). -/
def exampleSchedule : Nat → Nat → Nat := fun j t =>
  match j, t with
  | 0, 0 => 0
  | 0, 1 => 4
  | 0, 2 => 6
  | 1, 0 => 3
  | 1, 1 => 5
  | 1, 2 => 7
  | 2, 0 => 0
  | 2, 1 => 8
  | _, _ => 0

/-! ## Batch variant (src/SchedulingRoman.py)

`build_model` creates, per batch `i`, boolean indicators `A_I[i, k]` /
`A_O[i, k]` for the categorical input/output options, integer start, duration
and end variables for the input, buffer and output stages, interval variables
linking them, and a volume interval of constant size `V`. It then adds an
exactly-one constraint per batch over each indicator family, conditional
duration constraints enforced only by their indicator, the per-batch stage
chaining, a single 2-D no-overlap over the buffer boxes, and minimizes
`E_BUFFER[number_batches - 1]`. -/

/-- The raw input dictionary of `build_model`, with categorical option keys of
types `I` (inputs) and `O` (outputs); `Tin`/`Tout` are the duration tables. -/
structure BatchInstance (I O : Type) where
  noBatches : Nat
  inputs : List I
  outputs : List O
  V : Int
  vMaxBuffer : Int
  tIn : I → Int
  tOut : O → Int
  tMin : Int
  tMax : Int

/-- A concrete value for every variable family of the batch model. -/
structure BatchAssign (I O : Type) where
  A_I : Nat → I → Bool
  A_O : Nat → O → Bool
  S_INPUT : Nat → Int
  D_INPUT : Nat → Int
  E_INPUT : Nat → Int
  S_BUFFER : Nat → Int
  D_BUFFER : Nat → Int
  E_BUFFER : Nat → Int
  S_OUTPUT : Nat → Int
  D_OUTPUT : Nat → Int
  E_OUTPUT : Nat → Int
  V_BUFFER_1 : Nat → Int
  V_BUFFER_2 : Nat → Int

/-- One constraint emitted by the batch `build_model`. -/
inductive BatchConstraint (I O : Type) where
  /-- `sum(A_I[i, k] for k in inputs) == 1`. -/
  | exactlyOneInput (i : Nat)
  /-- `sum(A_O[i, k] for k in outputs) == 1`. -/
  | exactlyOneOutput (i : Nat)
  /-- `Add(D_INPUT[i] == T_in[k]).OnlyEnforceIf(A_I[i, k])`. -/
  | inputDuration (i : Nat) (k : I)
  /-- `Add(D_INPUT[i] == T_out[k]).OnlyEnforceIf(A_O[i, k])` — note the target
  variable is `D_INPUT[i]`, exactly as in the source. -/
  | outputDuration (i : Nat) (k : O)
  /-- `Add(S_BUFFER[i] == E_INPUT[i])`. -/
  | bufferAfterInput (i : Nat)
  /-- `Add(S_OUTPUT[i] == E_BUFFER[i])`. -/
  | outputAfterBuffer (i : Nat)
  /-- `AddNoOverlap2D(B_BUFFER.values(), V_BUFFER.values())`. -/
  | noOverlap2D
  deriving DecidableEq

/-- The constraint list `build_model` emits, in loop order. -/
def buildBatchConstraints {I O : Type} (inst : BatchInstance I O) :
    List (BatchConstraint I O) :=
  ((List.range inst.noBatches).map BatchConstraint.exactlyOneInput) ++
  ((List.range inst.noBatches).map BatchConstraint.exactlyOneOutput) ++
  allTasks ((List.range inst.noBatches).map fun i =>
    (inst.inputs.map (BatchConstraint.inputDuration i)) ++
      (inst.outputs.map (BatchConstraint.outputDuration i))) ++
  allTasks ((List.range inst.noBatches).map fun i =>
    [BatchConstraint.bufferAfterInput i, BatchConstraint.outputAfterBuffer i]) ++
  [BatchConstraint.noOverlap2D]

/-- A boolean variable read as the integer CP-SAT sums. -/
def boolToInt (b : Bool) : Int := if b then 1 else 0

/-- The 2-D boxes `(B_BUFFER[i], V_BUFFER[i])` and `(B_BUFFER[j], V_BUFFER[j])`
do not overlap: they are disjoint in time or disjoint in volume. -/
def batchBoxesDisjoint {I O : Type} (a : BatchAssign I O) (i j : Nat) : Prop :=
  a.E_BUFFER i ≤ a.S_BUFFER j ∨ a.E_BUFFER j ≤ a.S_BUFFER i ∨
    a.V_BUFFER_2 i ≤ a.V_BUFFER_1 j ∨ a.V_BUFFER_2 j ≤ a.V_BUFFER_1 i

instance {I O : Type} (a : BatchAssign I O) (i j : Nat) :
    Decidable (batchBoxesDisjoint a i j) := by
  unfold batchBoxesDisjoint; exact inferInstance

/-- Satisfaction of one emitted constraint. -/
def batchConstraintSat {I O : Type} (inst : BatchInstance I O) (a : BatchAssign I O) :
    BatchConstraint I O → Prop
  | .exactlyOneInput i => (inst.inputs.map fun k => boolToInt (a.A_I i k)).sum = 1
  | .exactlyOneOutput i => (inst.outputs.map fun k => boolToInt (a.A_O i k)).sum = 1
  | .inputDuration i k => a.A_I i k = true → a.D_INPUT i = inst.tIn k
  | .outputDuration i k => a.A_O i k = true → a.D_INPUT i = inst.tOut k
  | .bufferAfterInput i => a.S_BUFFER i = a.E_INPUT i
  | .outputAfterBuffer i => a.S_OUTPUT i = a.E_BUFFER i
  | .noOverlap2D => ∀ i < inst.noBatches, ∀ j < inst.noBatches,
      i ≠ j → batchBoxesDisjoint a i j

instance {I O : Type} (inst : BatchInstance I O) (a : BatchAssign I O)
    [DecidableEq I] [DecidableEq O] (c : BatchConstraint I O) :
    Decidable (batchConstraintSat inst a c) := by
  unfold batchConstraintSat
  match c with
  | .exactlyOneInput i => exact inferInstance
  | .exactlyOneOutput i => exact inferInstance
  | .inputDuration i k => exact inferInstance
  | .outputDuration i k => exact inferInstance
  | .bufferAfterInput i => exact inferInstance
  | .outputAfterBuffer i => exact inferInstance
  | .noOverlap2D => exact inferInstance

/-- The variable declarations of the batch `build_model`: domain bounds of
every `NewIntVar` and the `end = start + size` link of every `NewIntervalVar`
(for `V_BUFFER` the size is the constant `V`). -/
def batchVarsOk {I O : Type} (inst : BatchInstance I O) (a : BatchAssign I O) : Prop :=
  ∀ i < inst.noBatches,
    (inst.tMin ≤ a.S_INPUT i ∧ a.S_INPUT i ≤ inst.tMax) ∧
    (inst.tMin ≤ a.S_BUFFER i ∧ a.S_BUFFER i ≤ inst.tMax) ∧
    (inst.tMin ≤ a.S_OUTPUT i ∧ a.S_OUTPUT i ≤ inst.tMax) ∧
    (inst.tMin ≤ a.D_INPUT i ∧ a.D_INPUT i ≤ inst.tMax) ∧
    (1 ≤ a.D_BUFFER i ∧ a.D_BUFFER i ≤ inst.tMax) ∧
    (inst.tMin ≤ a.D_OUTPUT i ∧ a.D_OUTPUT i ≤ inst.tMax) ∧
    (inst.tMin ≤ a.E_INPUT i ∧ a.E_INPUT i ≤ inst.tMax) ∧
    (inst.tMin ≤ a.E_BUFFER i ∧ a.E_BUFFER i ≤ inst.tMax) ∧
    (inst.tMin ≤ a.E_OUTPUT i ∧ a.E_OUTPUT i ≤ inst.tMax) ∧
    (0 ≤ a.V_BUFFER_1 i ∧ a.V_BUFFER_1 i ≤ inst.vMaxBuffer) ∧
    (0 ≤ a.V_BUFFER_2 i ∧ a.V_BUFFER_2 i ≤ inst.vMaxBuffer) ∧
    a.E_INPUT i = a.S_INPUT i + a.D_INPUT i ∧
    a.E_BUFFER i = a.S_BUFFER i + a.D_BUFFER i ∧
    a.E_OUTPUT i = a.S_OUTPUT i + a.D_OUTPUT i ∧
    a.V_BUFFER_2 i = a.V_BUFFER_1 i + inst.V

instance {I O : Type} (inst : BatchInstance I O) (a : BatchAssign I O) :
    Decidable (batchVarsOk inst a) := by
  unfold batchVarsOk; exact inferInstance

/-- A full assignment satisfies the batch model: every variable declaration
and every emitted constraint. -/
def satisfiesBatchModel {I O : Type} (inst : BatchInstance I O) (a : BatchAssign I O) : Prop :=
  batchVarsOk inst a ∧ ∀ c ∈ buildBatchConstraints inst, batchConstraintSat inst a c

instance {I O : Type} (inst : BatchInstance I O) (a : BatchAssign I O)
    [DecidableEq I] [DecidableEq O] : Decidable (satisfiesBatchModel inst a) := by
  unfold satisfiesBatchModel; exact inferInstance

/-- The minimized objective: `model.Minimize(E_BUFFER[number_batches - 1])`. -/
def batchObjective {I O : Type} (inst : BatchInstance I O) (a : BatchAssign I O) : Int :=
  a.E_BUFFER (inst.noBatches - 1)

/-- The largest buffer end time over all batches (what the objective is not). -/
def maxBufferEnd {I O : Type} (inst : BatchInstance I O) (a : BatchAssign I O) : Int :=
  ((List.range inst.noBatches).map a.E_BUFFER).foldr max 0

/-- A two-batch instance with one input option and one output option, both of
transfer duration 1. -/
def c10Instance : BatchInstance Nat Nat :=
  { noBatches := 2
    inputs := [0]
    outputs := [0]
    V := 1
    vMaxBuffer := 2
    tIn := fun _ => 1
    tOut := fun _ => 1
    tMin := 0
    tMax := 100000 }

/-- A full assignment for `c10Instance` in which batch 0 stays in the buffer
until time 11 while batch 1 (the one the objective reads) leaves at time 2;
the two buffer boxes are stacked in the volume dimension. -/
def c10Assign : BatchAssign Nat Nat :=
  { A_I := fun _ _ => true
    A_O := fun _ _ => true
    S_INPUT := fun _ => 0
    D_INPUT := fun _ => 1
    E_INPUT := fun _ => 1
    S_BUFFER := fun _ => 1
    D_BUFFER := fun i => if i = 0 then 10 else 1
    E_BUFFER := fun i => if i = 0 then 11 else 2
    S_OUTPUT := fun i => if i = 0 then 11 else 2
    D_OUTPUT := fun _ => 0
    E_OUTPUT := fun i => if i = 0 then 11 else 2
    V_BUFFER_1 := fun i => if i = 0 then 0 else 1
    V_BUFFER_2 := fun i => if i = 0 then 1 else 2 }

/-! ## Solution enumeration (src/EmployeeScheduling.py)

`NursesPartialSolutionPrinter.on_solution_callback` increments
`_solution_count`, prints the solution, and calls `StopSearch()` once the
count has reached `_solution_limit`. -/

/-- `on_solution_callback` as a state transition: from the current
`_solution_count` it produces the new count and whether `StopSearch()` was
requested (`solution_count >= solution_limit` after the increment). -/
def onSolutionCallback (limit count : Nat) : Nat × Bool :=
  (count + 1, decide (limit ≤ count + 1))

/-- Modelled from the spec: the solver oracle (external, not in the
repository) emits a lazy sequence of discovered solutions, invoking the
registered callback once per solution and honoring a `StopSearch` request
promptly, emitting no further solution afterward. `sols` is the oracle's
stream of discovered solutions, `count` the callback state; the result is the
list of solutions actually emitted to the callback. -/
def enumerate {α : Type} (limit : Nat) : List α → Nat → List α
  | [], _ => []
  | s :: rest, count =>
      let r := onSolutionCallback limit count
      if r.2 then [s] else s :: enumerate limit rest r.1

/-- Strict lexicographic order on task references, the order in which the
builder's loops create them. -/
def lexLt (a b : TaskRef) : Prop := a.1 < b.1 ∨ (a.1 = b.1 ∧ a.2 < b.2)

/-! ## Membership and ordering of the emitted constraint lists -/

theorem mem_tasksOnMachine (m : Nat) :
    ∀ (job : List Task) (i t : Nat),
      t ∈ tasksOnMachine m i job ↔
        ∃ k, t = i + k ∧ k < job.length ∧ (job.getD k (0, 0)).1 = m := by
  intro job
  induction job with
  | nil => intro i t; simp [tasksOnMachine]
  | cons task rest ih =>
    intro i t
    rw [tasksOnMachine, List.mem_append, ih (i + 1)]
    constructor
    · rintro (h | ⟨k, rfl, hk, hkm⟩)
      · by_cases hm : task.1 = m
        · rw [if_pos hm, List.mem_singleton] at h
          exact ⟨0, by omega, by simp, by simpa using hm⟩
        · simp [hm] at h
      · exact ⟨k + 1, by omega, by simpa using hk, by simpa using hkm⟩
    · rintro ⟨k, rfl, hk, hkm⟩
      cases k with
      | zero =>
        left
        simp only [List.getD_cons_zero] at hkm
        simp [hkm]
      | succ k =>
        right
        exact ⟨k, by omega, by simpa using hk, by simpa using hkm⟩

theorem pairwise_lt_tasksOnMachine (m : Nat) :
    ∀ (job : List Task) (i : Nat), (tasksOnMachine m i job).Pairwise (· < ·) := by
  intro job
  induction job with
  | nil => intro i; simp [tasksOnMachine]
  | cons task rest ih =>
    intro i
    rw [tasksOnMachine]
    refine List.pairwise_append.2 ⟨?_, ih (i + 1), ?_⟩
    · by_cases hm : task.1 = m <;> simp [hm]
    · intro a ha b hb
      obtain ⟨k, rfl, -, -⟩ := (mem_tasksOnMachine m rest (i + 1) b).1 hb
      by_cases hm : task.1 = m
      · rw [if_pos hm, List.mem_singleton] at ha
        omega
      · simp [hm] at ha

theorem mem_machineToIntervalsFrom (m : Nat) :
    ∀ (jobs : JobsData) (i : Nat) (r : TaskRef),
      r ∈ machineToIntervalsFrom m i jobs ↔
        ∃ k, r.1 = i + k ∧ k < jobs.length ∧ r.2 < (jobs.getD k []).length ∧
          ((jobs.getD k []).getD r.2 (0, 0)).1 = m := by
  intro jobs
  induction jobs with
  | nil => intro i r; simp [machineToIntervalsFrom]
  | cons job rest ih =>
    rintro i ⟨j, t⟩
    rw [machineToIntervalsFrom, List.mem_append, ih (i + 1)]
    constructor
    · rintro (h | ⟨k, h1, hk, h2, h3⟩)
      · obtain ⟨u, hu, huv⟩ := List.mem_map.1 h
        simp only [Prod.mk.injEq] at huv
        obtain ⟨rfl, rfl⟩ := huv
        obtain ⟨k, rfl, hk, hm⟩ := (mem_tasksOnMachine m job 0 u).1 hu
        exact ⟨0, by simp, by simp, by simpa using hk, by simpa using hm⟩
      · exact ⟨k + 1, by omega, by simpa using hk, by simpa using h2,
          by simpa using h3⟩
    · rintro ⟨k, h1, hk, h2, h3⟩
      simp only at h1
      cases k with
      | zero =>
        left
        subst h1
        refine List.mem_map.2 ⟨t, ?_, by simp⟩
        exact (mem_tasksOnMachine m job 0 t).2 ⟨t, by omega, by simpa using h2,
          by simpa using h3⟩
      | succ k =>
        right
        exact ⟨k, by omega, by simpa using hk, by simpa using h2, by simpa using h3⟩

theorem getD_nonempty {α : Type} {l : List (List α)} {j : Nat}
    (h : l.getD j [] ≠ []) : j < l.length := by
  by_contra hj
  exact h (List.getD_eq_default _ _ (by omega))

theorem mem_machineToIntervals {jobs : JobsData} {m : Nat} {r : TaskRef} :
    r ∈ machineToIntervals jobs m ↔
      r.2 < (jobs.getD r.1 []).length ∧ taskMachine jobs r.1 r.2 = m := by
  rw [machineToIntervals, mem_machineToIntervalsFrom]
  constructor
  · rintro ⟨k, h1, hk, h2, h3⟩
    obtain rfl : r.1 = k := by omega
    exact ⟨h2, h3⟩
  · rintro ⟨h2, h3⟩
    have hj : r.1 < jobs.length := getD_nonempty (by intro h; rw [h] at h2; simp at h2)
    exact ⟨r.1, by omega, hj, h2, h3⟩

theorem pairwise_lexLt_machineToIntervalsFrom (m : Nat) :
    ∀ (jobs : JobsData) (i : Nat), (machineToIntervalsFrom m i jobs).Pairwise lexLt := by
  intro jobs
  induction jobs with
  | nil => intro i; simp [machineToIntervalsFrom]
  | cons job rest ih =>
    intro i
    rw [machineToIntervalsFrom]
    refine List.pairwise_append.2 ⟨?_, ih (i + 1), ?_⟩
    · refine (List.pairwise_map).2 ?_
      exact (pairwise_lt_tasksOnMachine m job 0).imp fun h => Or.inr ⟨rfl, h⟩
    · intro a ha b hb
      obtain ⟨u, -, rfl⟩ := List.mem_map.1 ha
      obtain ⟨k, hb1, -, -, -⟩ := (mem_machineToIntervalsFrom m rest (i + 1) b).1 hb
      exact Or.inl (by simp only at hb1 ⊢; omega)

theorem nodup_machineToIntervals (jobs : JobsData) (m : Nat) :
    (machineToIntervals jobs m).Nodup :=
  (pairwise_lexLt_machineToIntervalsFrom m jobs 0).imp fun h => by
    rcases h with h | ⟨-, h⟩ <;> intro he <;> rw [he] at h <;> omega

theorem mem_precConstraintsFrom :
    ∀ (jobs : JobsData) (i : Nat) (r : TaskRef),
      r ∈ precConstraintsFrom i jobs ↔
        ∃ k, r.1 = i + k ∧ k < jobs.length ∧ r.2 + 1 < (jobs.getD k []).length := by
  intro jobs
  induction jobs with
  | nil => intro i r; simp [precConstraintsFrom]
  | cons job rest ih =>
    rintro i ⟨j, t⟩
    rw [precConstraintsFrom, List.mem_append, ih (i + 1)]
    constructor
    · rintro (h | ⟨k, h1, hk, h2⟩)
      · obtain ⟨u, hu, huv⟩ := List.mem_map.1 h
        simp only [Prod.mk.injEq] at huv
        obtain ⟨rfl, rfl⟩ := huv
        rw [List.mem_range] at hu
        exact ⟨0, by simp, by simp, by simp only [List.getD_cons_zero]; omega⟩
      · exact ⟨k + 1, by omega, by simpa using hk, by simpa using h2⟩
    · rintro ⟨k, h1, hk, h2⟩
      simp only at h1
      cases k with
      | zero =>
        left
        subst h1
        simp only [List.getD_cons_zero] at h2
        exact List.mem_map.2 ⟨t, List.mem_range.2 (by omega), rfl⟩
      | succ k =>
        right
        exact ⟨k, by omega, by simpa using hk, by simpa using h2⟩

theorem mem_precConstraints {jobs : JobsData} {r : TaskRef} :
    r ∈ precConstraints jobs ↔ r.2 + 1 < (jobs.getD r.1 []).length := by
  rw [precConstraints, mem_precConstraintsFrom]
  constructor
  · rintro ⟨k, h1, hk, h2⟩
    obtain rfl : r.1 = k := by omega
    exact h2
  · intro h2
    have hj : r.1 < jobs.length := getD_nonempty (by intro h; rw [h] at h2; simp at h2)
    exact ⟨r.1, by omega, hj, h2⟩

theorem pairwise_lexLt_precConstraintsFrom :
    ∀ (jobs : JobsData) (i : Nat), (precConstraintsFrom i jobs).Pairwise lexLt := by
  intro jobs
  induction jobs with
  | nil => intro i; simp [precConstraintsFrom]
  | cons job rest ih =>
    intro i
    rw [precConstraintsFrom]
    refine List.pairwise_append.2 ⟨?_, ih (i + 1), ?_⟩
    · refine (List.pairwise_map).2 ?_
      exact (List.pairwise_lt_range _).imp fun h => Or.inr ⟨rfl, h⟩
    · intro a ha b hb
      obtain ⟨u, -, rfl⟩ := List.mem_map.1 ha
      obtain ⟨k, hb1, -, -⟩ := (mem_precConstraintsFrom rest (i + 1) b).1 hb
      exact Or.inl (by simp only at hb1 ⊢; omega)

theorem nodup_precConstraints (jobs : JobsData) : (precConstraints jobs).Nodup :=
  (pairwise_lexLt_precConstraintsFrom jobs 0).imp fun h => by
    rcases h with h | ⟨-, h⟩ <;> intro he <;> rw [he] at h <;> omega

theorem mem_taskRefsFrom :
    ∀ (jobs : JobsData) (i : Nat) (r : TaskRef),
      r ∈ taskRefsFrom i jobs ↔
        ∃ k, r.1 = i + k ∧ k < jobs.length ∧ r.2 < (jobs.getD k []).length := by
  intro jobs
  induction jobs with
  | nil => intro i r; simp [taskRefsFrom]
  | cons job rest ih =>
    rintro i ⟨j, t⟩
    rw [taskRefsFrom, List.mem_append, ih (i + 1)]
    constructor
    · rintro (h | ⟨k, h1, hk, h2⟩)
      · obtain ⟨u, hu, huv⟩ := List.mem_map.1 h
        simp only [Prod.mk.injEq] at huv
        obtain ⟨rfl, rfl⟩ := huv
        rw [List.mem_range] at hu
        exact ⟨0, by simp, by simp, by simpa using hu⟩
      · exact ⟨k + 1, by omega, by simpa using hk, by simpa using h2⟩
    · rintro ⟨k, h1, hk, h2⟩
      simp only at h1
      cases k with
      | zero =>
        left
        subst h1
        simp only [List.getD_cons_zero] at h2
        exact List.mem_map.2 ⟨t, List.mem_range.2 h2, rfl⟩
      | succ k =>
        right
        exact ⟨k, by omega, by simpa using hk, by simpa using h2⟩

theorem mem_taskRefs {jobs : JobsData} {r : TaskRef} :
    r ∈ taskRefs jobs ↔ r.2 < (jobs.getD r.1 []).length := by
  rw [taskRefs, mem_taskRefsFrom]
  constructor
  · rintro ⟨k, h1, hk, h2⟩
    obtain rfl : r.1 = k := by omega
    exact h2
  · intro h2
    have hj : r.1 < jobs.length := getD_nonempty (by intro h; rw [h] at h2; simp at h2)
    exact ⟨r.1, by omega, hj, h2⟩

/-! ## The serial schedule and the horizon -/

theorem snd_getD (job : List Task) (n : Nat) :
    (job.map Prod.snd).getD n 0 = (job.getD n (0, 0)).2 :=
  List.getD_map job (0, 0) Prod.snd

theorem jobDur_getD (jobs : JobsData) (j : Nat) :
    (jobs.map jobDur).getD j 0 = jobDur (jobs.getD j []) :=
  List.getD_map jobs [] jobDur

theorem sum_take_mono (l : List Nat) : ∀ m n, m ≤ n → (l.take m).sum ≤ (l.take n).sum := by
  induction l with
  | nil => simp
  | cons x xs ih =>
    intro m n hmn
    cases m with
    | zero => simp
    | succ m =>
      cases n with
      | zero => omega
      | succ n =>
        simp only [List.take_succ_cons, List.sum_cons]
        exact Nat.add_le_add_left (ih m n (by omega)) x

theorem sum_take_le (l : List Nat) (n : Nat) : (l.take n).sum ≤ l.sum := by
  conv_rhs => rw [← List.take_append_drop n l]
  rw [List.sum_append]
  exact Nat.le_add_right _ _

theorem sum_take_succ_getD (l : List Nat) : ∀ i, i < l.length →
    (l.take (i + 1)).sum = (l.take i).sum + l.getD i 0 := by
  induction l with
  | nil => intro i h; simp at h
  | cons x xs ih =>
    intro i h
    cases i with
    | zero => simp
    | succ i =>
      simp only [List.take_succ_cons, List.sum_cons, List.getD_cons_succ,
        ih i (by simpa using h)]
      omega

theorem horizon_eq (jobs : JobsData) : horizon jobs = (jobs.map jobDur).sum := by
  induction jobs with
  | nil => rfl
  | cons job rest ih =>
    simp only [horizon, allTasks, List.map_append, List.sum_append] at ih ⊢
    simp [jobDur, ih]

theorem serialStart_end_le (jobs : JobsData) {j t : Nat}
    (h : t < (jobs.getD j []).length) :
    serialStart jobs j t + taskDuration jobs j t ≤ ((jobs.map jobDur).take (j + 1)).sum := by
  have hj : j < jobs.length := getD_nonempty (by intro he; rw [he] at h; simp at h)
  rw [sum_take_succ_getD _ j (by simpa using hj), jobDur_getD]
  have h2 : t < ((jobs.getD j []).map Prod.snd).length := by simpa using h
  have h3 := sum_take_succ_getD ((jobs.getD j []).map Prod.snd) t h2
  rw [snd_getD] at h3
  have h4 := sum_take_le ((jobs.getD j []).map Prod.snd) (t + 1)
  unfold serialStart taskDuration jobDur
  omega

theorem serialStart_le_of_lexLt (jobs : JobsData) {a b : TaskRef}
    (ha : a.2 < (jobs.getD a.1 []).length) (hab : lexLt a b) :
    serialStart jobs a.1 a.2 + taskDuration jobs a.1 a.2 ≤ serialStart jobs b.1 b.2 := by
  rcases hab with h | ⟨heq, hlt⟩
  · have h1 := serialStart_end_le jobs ha
    have h2 : ((jobs.map jobDur).take (a.1 + 1)).sum ≤ ((jobs.map jobDur).take b.1).sum :=
      sum_take_mono _ _ _ (by omega)
    unfold serialStart at h1 ⊢
    omega
  · have h3 := sum_take_succ_getD ((jobs.getD a.1 []).map Prod.snd) a.2 (by simpa using ha)
    rw [snd_getD] at h3
    have h4 := sum_take_mono ((jobs.getD a.1 []).map Prod.snd) (a.2 + 1) b.2 (by omega)
    unfold serialStart taskDuration
    rw [← heq]
    omega

theorem foldr_max_le {l : List Nat} {b : Nat} (h : ∀ x ∈ l, x ≤ b) :
    l.foldr Nat.max 0 ≤ b := by
  induction l with
  | nil => simp
  | cons x xs ih =>
    simp only [List.foldr_cons]
    exact Nat.max_le.2 ⟨h x (by simp), ih fun y hy => h y (by simp [hy])⟩

theorem le_foldr_max {l : List Nat} {x : Nat} (h : x ∈ l) : x ≤ l.foldr Nat.max 0 := by
  induction l with
  | nil => simp at h
  | cons y ys ih =>
    simp only [List.foldr_cons]
    rcases List.mem_cons.1 h with rfl | h
    · exact Nat.le_max_left _ _
    · exact le_trans (ih h) (Nat.le_max_right _ _)

/-- The serial back-to-back schedule satisfies every constraint of the built
model and keeps every variable within its `[0, horizon]` bounds. -/
theorem serial_satisfies (jobs : JobsData) : satisfiesModel jobs (serialStart jobs) := by
  refine ⟨?_, ?_, ?_⟩
  · intro r hr
    rw [mem_taskRefs] at hr
    have h1 := serialStart_end_le jobs hr
    have h2 := sum_take_le (jobs.map jobDur) (r.1 + 1)
    rw [← horizon_eq] at h2
    have hend : taskEnd jobs (serialStart jobs) r.1 r.2 ≤ horizon jobs := le_trans h1 h2
    exact ⟨le_trans (Nat.le_add_right _ _) hend, hend⟩
  · intro r hr
    rw [mem_precConstraints] at hr
    exact @serialStart_le_of_lexLt jobs r (r.1, r.2 + 1) (by omega)
      (Or.inr ⟨rfl, show r.2 < r.2 + 1 from Nat.lt_succ_self r.2⟩)
  · intro c hc
    cases hmc : machinesCount jobs with
    | none => rw [noOverlapConstraints, hmc] at hc; simp at hc
    | some mc =>
      rw [noOverlapConstraints, hmc] at hc
      simp only [Option.map_some', Option.getD_some, List.mem_map] at hc
      obtain ⟨m, -, rfl⟩ := hc
      refine List.Pairwise.imp_of_mem ?_ (pairwise_lexLt_machineToIntervalsFrom m jobs 0)
      intro a b ha hb hab
      have ha2 := mem_machineToIntervals.1 ha
      exact Or.inl (serialStart_le_of_lexLt jobs ha2.1 hab)

/-- The serial schedule's makespan is at most the horizon. -/
theorem serial_makespan_le (jobs : JobsData) :
    makespanOf jobs (serialStart jobs) ≤ horizon jobs := by
  apply foldr_max_le
  intro x hx
  obtain ⟨j, hj, rfl⟩ := List.mem_map.1 hx
  rw [List.mem_range] at hj
  by_cases hL : (jobs.getD j []).length = 0
  · obtain he := List.length_eq_zero.1 hL
    have h3 : taskEnd jobs (serialStart jobs) j ((jobs.getD j []).length - 1) =
        ((jobs.map jobDur).take j).sum := by
      unfold taskEnd serialStart taskDuration
      rw [he]
      simp
    rw [h3, horizon_eq]
    exact sum_take_le _ _
  · have h1 := serialStart_end_le jobs
      (show (jobs.getD j []).length - 1 < (jobs.getD j []).length by omega)
    have h2 := sum_take_le (jobs.map jobDur) (j + 1)
    rw [← horizon_eq] at h2
    exact le_trans h1 h2

theorem mem_precConstraints_mk {jobs : JobsData} {j t : Nat} :
    (j, t) ∈ precConstraints jobs ↔ t + 1 < (jobs.getD j []).length :=
  mem_precConstraints

theorem nodup_count_eq_one {α : Type} [BEq α] [LawfulBEq α] {l : List α} {a : α}
    (hn : l.Nodup) (h : a ∈ l) : l.count a = 1 := by
  induction l with
  | nil => simp at h
  | cons b xs ih =>
    have hcons := List.pairwise_cons.1 hn
    rcases List.mem_cons.1 h with rfl | h
    · have hb : a ∉ xs := fun hx => hcons.1 a hx rfl
      rw [List.count_cons_self, List.count_eq_zero_of_not_mem hb]
    · have hab : a ≠ b := fun he => hcons.1 a h he.symm
      rw [List.count_cons_of_ne hab, ih hcons.2 h]

theorem machinesCount_none_iff (jobs : JobsData) :
    machinesCount jobs = none ↔ allTasks jobs = [] := by
  unfold machinesCount
  cases he : allTasks jobs with
  | nil => simp
  | cons t ts => simp

/-! ## Claim theorems for the job-shop builder and decoder -/

/-- C1: for every job and every pair of consecutive tasks `(i, i+1)` in it, the
builder adds exactly one precedence constraint `start[i+1] >= end[i]`; a
single-task job contributes none; satisfying the emitted precedence
constraints is exactly satisfying these inequalities. -/
theorem precedence_constraints_exactly_once (jobs : JobsData) :
    (∀ j t : Nat, (precConstraints jobs).count (j, t) =
      if t + 1 < (jobs.getD j []).length then 1 else 0) ∧
    (∀ j : Nat, (jobs.getD j []).length = 1 → ∀ t : Nat, (j, t) ∉ precConstraints jobs) ∧
    (∀ s : Nat → Nat → Nat,
      (∀ r ∈ precConstraints jobs, taskEnd jobs s r.1 r.2 ≤ s r.1 (r.2 + 1)) ↔
        (∀ j t : Nat, t + 1 < (jobs.getD j []).length → taskEnd jobs s j t ≤ s j (t + 1))) := by
  refine ⟨?_, ?_, ?_⟩
  · intro j t
    by_cases h : t + 1 < (jobs.getD j []).length
    · rw [if_pos h]
      exact nodup_count_eq_one (nodup_precConstraints jobs) (mem_precConstraints_mk.2 h)
    · rw [if_neg h]
      exact List.count_eq_zero_of_not_mem fun hm => h (mem_precConstraints_mk.1 hm)
  · intro j hj t hm
    have h2 := mem_precConstraints_mk.1 hm
    omega
  · intro s
    constructor
    · intro h j t hlt
      exact h (j, t) (mem_precConstraints_mk.2 hlt)
    · intro h r hr
      exact h r.1 r.2 (mem_precConstraints.1 hr)

/-- C2 as stated is false: on the instance `[[(1, 1)]]` machine `0` has no
assigned task, yet `build_model` still calls `AddNoOverlap` for it and so
emits a (vacuous) no-overlap constraint over the empty interval list — the
emitted constraint list has an entry for machine `0`, not none. -/
theorem empty_machine_gets_constraint :
    machineToIntervals [[(1, 1)]] 0 = [] ∧
    noOverlapConstraints [[(1, 1)]] = some [[], [(0, 0)]] ∧
    ((noOverlapConstraints [[(1, 1)]]).getD []).length = 2 := by
  refine ⟨by decide, by decide, by decide⟩

/-- C2 amended: for every machine id in `range(machines_count)` the builder
emits exactly one no-overlap constraint covering the whole set of intervals
assigned to that machine (each assigned interval listed exactly once, not one
constraint per pair); a machine with zero assigned tasks gets one vacuous
constraint over the empty list, which no assignment can violate, and no
error occurs. -/
theorem one_noOverlap_per_machine (jobs : JobsData) (mc : Nat)
    (h : machinesCount jobs = some mc) :
    noOverlapConstraints jobs = some ((List.range mc).map (machineToIntervals jobs)) ∧
    (∀ m : Nat, ∀ r : TaskRef, r ∈ machineToIntervals jobs m ↔
      (r.2 < (jobs.getD r.1 []).length ∧ taskMachine jobs r.1 r.2 = m)) ∧
    (∀ m : Nat, (machineToIntervals jobs m).Nodup) ∧
    (∀ m : Nat, machineToIntervals jobs m = [] →
      ∀ s : Nat → Nat → Nat, (machineToIntervals jobs m).Pairwise (disjointTasks jobs s)) := by
  refine ⟨by simp only [noOverlapConstraints, h, Option.map_some'], ?_, ?_, ?_⟩
  · intro m r
    exact mem_machineToIntervals
  · exact nodup_machineToIntervals jobs
  · intro m hm s
    rw [hm]
    exact List.Pairwise.nil

theorem one_noOverlap_per_machine_witness :
    noOverlapConstraints jobsExample =
      some ((List.range 3).map (machineToIntervals jobsExample)) :=
  (one_noOverlap_per_machine jobsExample 3 (by decide)).1

/-- C3: the horizon is the sum of all task durations, every start/end variable
is bounded to `[0, horizon]`, and the serial back-to-back schedule satisfies
the whole model within `[0, horizon]` with makespan at most the horizon, so
the bound never excludes a feasible schedule or the optimum. -/
theorem horizon_admits_serial_schedule (jobs : JobsData) :
    horizon jobs = ((allTasks jobs).map Prod.snd).sum ∧
    (∀ r : TaskRef, startVarBounds jobs r = (0, horizon jobs) ∧
      endVarBounds jobs r = (0, horizon jobs)) ∧
    satisfiesModel jobs (serialStart jobs) ∧
    makespanOf jobs (serialStart jobs) ≤ horizon jobs :=
  ⟨rfl, fun _ => ⟨rfl, rfl⟩, serial_satisfies jobs, serial_makespan_le jobs⟩

/-- C4 as stated is false: on the instance `[[(0, 2)]]` with all-zero solved
starts, `build_response` called with oracle objective `999` returns `999` as
the makespan without error, while the maximum end over the decoded timetable
entries is `2`; no recomputation or assertion takes place. -/
theorem decoder_passes_mismatched_objective :
    buildResponse [[(0, 2)]] 1 Status.OPTIMAL 999 (fun _ _ => 0) =
      some (999, [[{ start := 0, job := 0, index := 0, duration := 2 }]]) ∧
    recomputedMakespan [[{ start := 0, job := 0, index := 0, duration := 2 }]] = 2 := by
  refine ⟨by decide, by decide⟩

/-- C4 amended: on an `OPTIMAL` or `FEASIBLE` status, `build_response`
reports the oracle-supplied objective value verbatim as the makespan next to
the per-machine timetable sorted by start; it performs no independent
recomputation and no assertion, and on any other status it returns nothing. -/
theorem buildResponse_reports_objective (jobs : JobsData) (mc : Nat)
    (status : Status) (objectiveValue : Nat) (value : Nat → Nat → Nat) :
    (status = Status.OPTIMAL ∨ status = Status.FEASIBLE →
      buildResponse jobs mc status objectiveValue value =
        some (objectiveValue,
          (List.range mc).map fun m => sortAT (assignedJobs jobs value m))) ∧
    (¬(status = Status.OPTIMAL ∨ status = Status.FEASIBLE) →
      buildResponse jobs mc status objectiveValue value = none) := by
  constructor
  · intro h
    unfold buildResponse
    rw [if_pos h]
  · intro h
    unfold buildResponse
    rw [if_neg h]

/-- C5 as stated is false: the input `[[(0, 0)]]` contains a task of
non-positive duration, yet `build_model` rejects nothing — it builds the full
model (horizon 0, one machine, a no-overlap constraint over the task), which
is then handed to the solver. The inputs that do fail die with unhandled
exceptions, never a typed `InvalidInput`: an empty job list raises
`ValueError` at the `max()` call, and an empty job beside a real task raises
`KeyError` at the `AddMaxEquality` comprehension. -/
theorem builder_accepts_zero_duration :
    buildModel [[(0, 0)]] =
      Except.ok { horizon := 0, machinesCount := 1, noOverlap := [[(0, 0)]], prec := [] } ∧
    buildModel [] = Except.error BuildError.valueError ∧
    buildModel [[(0, 1)], []] = Except.error BuildError.keyError := by
  refine ⟨by rfl, by rfl, by rfl⟩

theorem allTasks_ne_nil {jobs : JobsData} (hne : jobs ≠ [])
    (hall : ∀ job ∈ jobs, job ≠ []) : allTasks jobs ≠ [] := by
  cases jobs with
  | nil => exact absurd rfl hne
  | cons j rest =>
    intro habs
    rw [allTasks, List.append_eq_nil] at habs
    exact hall j (List.mem_cons.2 (Or.inl rfl)) habs.1

/-- C5 amended: there is no loader validation: `build_model` accepts tasks
with non-positive durations and any resource ids (the machine count is
derived as 1 + the maximum observed id, so no out-of-range id exists). It
fails in exactly two ways, both unhandled exceptions rather than a typed
rejection: with `ValueError` (at the `max()` call, before any constraint is
built) exactly when the instance has no task at all, and with `KeyError` (at
the `AddMaxEquality` comprehension, after the constraint loops) exactly when
some job is empty while a task exists elsewhere; every other input —
non-positive durations included — builds a model that reaches the solver. -/
theorem buildModel_failure_characterization (jobs : JobsData) :
    (buildModel jobs = Except.error BuildError.valueError ↔ allTasks jobs = []) ∧
    (buildModel jobs = Except.error BuildError.keyError ↔
      (allTasks jobs ≠ [] ∧ ∃ job ∈ jobs, job = [])) ∧
    ((∃ m, buildModel jobs = Except.ok m) ↔
      (jobs ≠ [] ∧ ∀ job ∈ jobs, job ≠ [])) := by
  have hmc := machinesCount_none_iff jobs
  have hany : jobs.any List.isEmpty = true ↔ ∃ job ∈ jobs, job = [] := by
    rw [List.any_eq_true]
    constructor
    · rintro ⟨job, hj, he⟩
      exact ⟨job, hj, List.isEmpty_iff.1 he⟩
    · rintro ⟨job, hj, rfl⟩
      exact ⟨[], hj, rfl⟩
  cases h2 : machinesCount jobs with
  | none =>
    have h3 := hmc.1 h2
    have hbm : buildModel jobs = Except.error BuildError.valueError := by
      simp [buildModel, h2]
    rw [hbm]
    refine ⟨by simp [h3], by simp [h3], ?_⟩
    constructor
    · rintro ⟨m, hm⟩
      exact Except.noConfusion hm
    · rintro ⟨hne, hall⟩
      exact absurd h3 (allTasks_ne_nil hne hall)
  | some mc =>
    have h3 : allTasks jobs ≠ [] := fun he => by
      rw [hmc.2 he] at h2
      exact Option.noConfusion h2
    by_cases ha : jobs.any List.isEmpty
    · have hbm : buildModel jobs = Except.error BuildError.keyError := by
        simp [buildModel, h2, ha]
      rw [hbm]
      refine ⟨by simp [h3], iff_of_true rfl ⟨h3, hany.1 ha⟩, ?_⟩
      constructor
      · rintro ⟨m, hm⟩
        exact Except.noConfusion hm
      · rintro ⟨-, hall⟩
        obtain ⟨job, hj, rfl⟩ := hany.1 ha
        exact absurd rfl (hall [] hj)
    · have hbm : buildModel jobs =
          Except.ok { horizon := horizon jobs
                      machinesCount := mc
                      noOverlap := (List.range mc).map (machineToIntervals jobs)
                      prec := precConstraints jobs } := by
        simp [buildModel, h2, ha]
      rw [hbm]
      refine ⟨by simp [h3], ?_, ?_⟩
      · constructor
        · intro he
          exact Except.noConfusion he
        · rintro ⟨-, hex⟩
          exact absurd (hany.2 hex) ha
      · refine iff_of_true ⟨_, rfl⟩ ⟨?_, ?_⟩
        · intro habs
          refine h3 ?_
          rw [habs]
          rfl
        · intro job hj habs2
          exact ha (hany.2 ⟨job, hj, habs2⟩)

/-- Any assignment satisfying the model built for the reference instance has
makespan at least 11 (the disjunctions of the three machines' no-overlap
constraints leave no schedule finishing earlier). -/
theorem example_lower_bound (s : Nat → Nat → Nat)
    (h : satisfiesModel jobsExample s) : 11 ≤ makespanOf jobsExample s := by
  obtain ⟨-, hp, hn⟩ := h
  have p1 : s 0 0 + 3 ≤ s 0 1 := hp (0, 0) (by decide)
  have p2 : s 0 1 + 2 ≤ s 0 2 := hp (0, 1) (by decide)
  have p3 : s 1 0 + 2 ≤ s 1 1 := hp (1, 0) (by decide)
  have p4 : s 1 1 + 1 ≤ s 1 2 := hp (1, 1) (by decide)
  have p5 : s 2 0 + 4 ≤ s 2 1 := hp (2, 0) (by decide)
  have hm0 : List.Pairwise (disjointTasks jobsExample s) [(0, 0), (1, 0)] :=
    hn _ (by decide)
  have hm1 : List.Pairwise (disjointTasks jobsExample s) [(0, 1), (1, 2), (2, 0)] :=
    hn _ (by decide)
  have hm2 : List.Pairwise (disjointTasks jobsExample s) [(0, 2), (1, 1), (2, 1)] :=
    hn _ (by decide)
  have d0 : s 0 0 + 3 ≤ s 1 0 ∨ s 1 0 + 2 ≤ s 0 0 :=
    (List.pairwise_cons.1 hm0).1 (1, 0) (by decide)
  have d1 : s 0 1 + 2 ≤ s 1 2 ∨ s 1 2 + 4 ≤ s 0 1 :=
    (List.pairwise_cons.1 hm1).1 (1, 2) (by decide)
  have d2 : s 0 1 + 2 ≤ s 2 0 ∨ s 2 0 + 4 ≤ s 0 1 :=
    (List.pairwise_cons.1 hm1).1 (2, 0) (by decide)
  have d3 : s 1 2 + 4 ≤ s 2 0 ∨ s 2 0 + 4 ≤ s 1 2 :=
    (List.pairwise_cons.1 (List.pairwise_cons.1 hm1).2).1 (2, 0) (by decide)
  have d4 : s 0 2 + 2 ≤ s 1 1 ∨ s 1 1 + 1 ≤ s 0 2 :=
    (List.pairwise_cons.1 hm2).1 (1, 1) (by decide)
  have d5 : s 0 2 + 2 ≤ s 2 1 ∨ s 2 1 + 3 ≤ s 0 2 :=
    (List.pairwise_cons.1 hm2).1 (2, 1) (by decide)
  have d6 : s 1 1 + 1 ≤ s 2 1 ∨ s 2 1 + 3 ≤ s 1 1 :=
    (List.pairwise_cons.1 (List.pairwise_cons.1 hm2).2).1 (2, 1) (by decide)
  have key : 11 ≤ s 0 2 + 2 ∨ 11 ≤ s 1 2 + 4 ∨ 11 ≤ s 2 1 + 3 := by omega
  have hmk : makespanOf jobsExample s =
      Nat.max (s 0 2 + 2) (Nat.max (s 1 2 + 4) (Nat.max (s 2 1 + 3) 0)) := rfl
  rw [hmk]
  rcases key with hk | hk | hk
  · exact le_trans hk (Nat.le_max_left _ _)
  · exact le_trans (le_trans hk (Nat.le_max_left _ _)) (Nat.le_max_right _ _)
  · exact le_trans (le_trans (le_trans hk (Nat.le_max_left _ _)) (Nat.le_max_right _ _))
      (Nat.le_max_right _ _)

/-- C6: for the three-job reference instance the minimum makespan over all
assignments satisfying the built model is exactly 11 — no satisfying
assignment finishes before 11, and the schedule `exampleSchedule` attains 11 —
and decoding that schedule yields a timetable satisfying the no-overlap and
precedence invariants. -/
theorem reference_instance_optimum_eleven :
    (∀ s : Nat → Nat → Nat, satisfiesModel jobsExample s →
      11 ≤ makespanOf jobsExample s) ∧
    satisfiesModel jobsExample exampleSchedule ∧
    makespanOf jobsExample exampleSchedule = 11 ∧
    (∃ tt, buildResponse jobsExample 3 Status.OPTIMAL 11 exampleSchedule =
        some (11, tt) ∧ timetableNoOverlap tt ∧ timetablePrecedence tt) :=
  ⟨example_lower_bound, by decide, by decide, ⟨_, rfl, by decide, by decide⟩⟩

/-! ## Claim theorems for the batch variant -/

theorem mem_allTasks {α : Type} {L : List (List α)} {x : α} :
    x ∈ allTasks L ↔ ∃ l ∈ L, x ∈ l := by
  induction L with
  | nil => simp [allTasks]
  | cons l ls ih => simp [allTasks, ih]

theorem sum_boolToInt {α : Type} (p : α → Bool) (l : List α) :
    (l.map fun k => boolToInt (p k)).sum = (l.countP p : Int) := by
  induction l with
  | nil => rfl
  | cons x xs ih =>
    simp only [List.map_cons, List.sum_cons, ih, List.countP_cons]
    cases hx : p x
    · simp [boolToInt, hx]
    · simp only [boolToInt, hx, if_pos, List.countP_cons_of_pos, if_true]
      omega

theorem count_map_range_inj {β : Type} [DecidableEq β] (f : Nat → β)
    (hf : Function.Injective f) (n i : Nat) :
    ((List.range n).map f).count (f i) = if i < n then 1 else 0 := by
  by_cases h : i < n
  · rw [if_pos h]
    refine nodup_count_eq_one ((List.nodup_range n).map hf) ?_
    exact List.mem_map.2 ⟨i, List.mem_range.2 h, rfl⟩
  · rw [if_neg h]
    refine List.count_eq_zero_of_not_mem fun hm => ?_
    obtain ⟨u, hu, he⟩ := List.mem_map.1 hm
    rw [List.mem_range] at hu
    exact h (hf he ▸ hu)

/-- C7: per batch the builder emits exactly one exactly-one constraint over
the input indicators and a separate one over the output indicators, and any
assignment satisfying the built model has exactly one true input indicator
and exactly one true output indicator per batch. -/
theorem exactly_one_indicator_per_batch {I O : Type} [DecidableEq I] [DecidableEq O]
    (inst : BatchInstance I O) (a : BatchAssign I O)
    (h : satisfiesBatchModel inst a) :
    (∀ i : Nat, (buildBatchConstraints inst).count (BatchConstraint.exactlyOneInput i) =
      if i < inst.noBatches then 1 else 0) ∧
    (∀ i : Nat, (buildBatchConstraints inst).count (BatchConstraint.exactlyOneOutput i) =
      if i < inst.noBatches then 1 else 0) ∧
    (∀ i : Nat, i < inst.noBatches →
      inst.inputs.countP (a.A_I i) = 1 ∧ inst.outputs.countP (a.A_O i) = 1) := by
  have hmid : ∀ x : BatchConstraint I O,
      (∀ j k, x ≠ BatchConstraint.inputDuration j k) →
      (∀ j k, x ≠ BatchConstraint.outputDuration j k) →
      ((allTasks ((List.range inst.noBatches).map fun j =>
        (inst.inputs.map (BatchConstraint.inputDuration j)) ++
          (inst.outputs.map (BatchConstraint.outputDuration j)))).count x) = 0 := by
    intro x hx1 hx2
    refine List.count_eq_zero_of_not_mem fun hm => ?_
    obtain ⟨l, hl, hxl⟩ := mem_allTasks.1 hm
    obtain ⟨j, -, rfl⟩ := List.mem_map.1 hl
    rcases List.mem_append.1 hxl with hxl | hxl
    · obtain ⟨u, -, he⟩ := List.mem_map.1 hxl
      exact hx1 j u he.symm
    · obtain ⟨u, -, he⟩ := List.mem_map.1 hxl
      exact hx2 j u he.symm
  have hchain : ∀ x : BatchConstraint I O,
      (∀ j, x ≠ BatchConstraint.bufferAfterInput j) →
      (∀ j, x ≠ BatchConstraint.outputAfterBuffer j) →
      ((allTasks ((List.range inst.noBatches).map fun j =>
        [BatchConstraint.bufferAfterInput j, BatchConstraint.outputAfterBuffer j])).count x) = 0 := by
    intro x hx1 hx2
    refine List.count_eq_zero_of_not_mem fun hm => ?_
    obtain ⟨l, hl, hxl⟩ := mem_allTasks.1 hm
    obtain ⟨j, -, rfl⟩ := List.mem_map.1 hl
    rcases List.mem_cons.1 hxl with he | hxl
    · exact hx1 j he
    · exact hx2 j (List.mem_singleton.1 hxl)
  refine ⟨?_, ?_, ?_⟩
  · intro i
    unfold buildBatchConstraints
    rw [List.count_append, List.count_append, List.count_append, List.count_append]
    rw [count_map_range_inj (@BatchConstraint.exactlyOneInput I O)
        (fun x y he => by simpa using he) inst.noBatches i]
    rw [show (((List.range inst.noBatches).map
        (@BatchConstraint.exactlyOneOutput I O)).count
          (BatchConstraint.exactlyOneInput i)) = 0 from
      List.count_eq_zero_of_not_mem fun hm => by
        obtain ⟨u, -, he⟩ := List.mem_map.1 hm
        exact BatchConstraint.noConfusion he]
    rw [hmid _ (fun j k he => BatchConstraint.noConfusion he)
        (fun j k he => BatchConstraint.noConfusion he)]
    rw [hchain _ (fun j he => BatchConstraint.noConfusion he)
        (fun j he => BatchConstraint.noConfusion he)]
    rw [show (([(BatchConstraint.noOverlap2D : BatchConstraint I O)]).count
        (BatchConstraint.exactlyOneInput i)) = 0 from
      List.count_eq_zero_of_not_mem fun hm =>
        BatchConstraint.noConfusion (List.mem_singleton.1 hm)]
    omega
  · intro i
    unfold buildBatchConstraints
    rw [List.count_append, List.count_append, List.count_append, List.count_append]
    rw [count_map_range_inj (@BatchConstraint.exactlyOneOutput I O)
        (fun x y he => by simpa using he) inst.noBatches i]
    rw [show (((List.range inst.noBatches).map
        (@BatchConstraint.exactlyOneInput I O)).count
          (BatchConstraint.exactlyOneOutput i)) = 0 from
      List.count_eq_zero_of_not_mem fun hm => by
        obtain ⟨u, -, he⟩ := List.mem_map.1 hm
        exact BatchConstraint.noConfusion he]
    rw [hmid _ (fun j k he => BatchConstraint.noConfusion he)
        (fun j k he => BatchConstraint.noConfusion he)]
    rw [hchain _ (fun j he => BatchConstraint.noConfusion he)
        (fun j he => BatchConstraint.noConfusion he)]
    rw [show (([(BatchConstraint.noOverlap2D : BatchConstraint I O)]).count
        (BatchConstraint.exactlyOneOutput i)) = 0 from
      List.count_eq_zero_of_not_mem fun hm =>
        BatchConstraint.noConfusion (List.mem_singleton.1 hm)]
    omega
  · intro i hi
    have hin : (BatchConstraint.exactlyOneInput i : BatchConstraint I O) ∈
        buildBatchConstraints inst := by
      unfold buildBatchConstraints
      refine List.mem_append.2 (Or.inl (List.mem_append.2 (Or.inl (List.mem_append.2
        (Or.inl (List.mem_append.2 (Or.inl ?_)))))))
      exact List.mem_map.2 ⟨i, List.mem_range.2 hi, rfl⟩
    have hout : (BatchConstraint.exactlyOneOutput i : BatchConstraint I O) ∈
        buildBatchConstraints inst := by
      unfold buildBatchConstraints
      refine List.mem_append.2 (Or.inl (List.mem_append.2 (Or.inl (List.mem_append.2
        (Or.inl (List.mem_append.2 (Or.inr ?_)))))))
      exact List.mem_map.2 ⟨i, List.mem_range.2 hi, rfl⟩
    have s1 := h.2 _ hin
    have s2 := h.2 _ hout
    simp only [batchConstraintSat] at s1 s2
    rw [sum_boolToInt] at s1 s2
    constructor <;> omega

theorem exactly_one_indicator_per_batch_witness :
    c10Instance.inputs.countP (c10Assign.A_I 0) = 1 ∧
    c10Instance.outputs.countP (c10Assign.A_O 0) = 1 :=
  (exactly_one_indicator_per_batch c10Instance c10Assign (by decide)).2.2 0 (by decide)

/-- C8: the conditional duration constraints are emitted for exactly the
pairs (batch, option), both families are implications enforced only when
their indicator is true (an assignment with the indicator false satisfies
them vacuously — they are not unconditional equalities), and both families
constrain the same variable `D_INPUT[i]`; consequently, in any satisfying
assignment the chosen input option's `T_in` equals the chosen output
option's `T_out`. -/
theorem conditional_constraints_target_D_INPUT {I O : Type} (inst : BatchInstance I O) :
    (∀ (i : Nat) (k : I), (BatchConstraint.inputDuration i k : BatchConstraint I O) ∈
        buildBatchConstraints inst ↔ (i < inst.noBatches ∧ k ∈ inst.inputs)) ∧
    (∀ (i : Nat) (k : O), (BatchConstraint.outputDuration i k : BatchConstraint I O) ∈
        buildBatchConstraints inst ↔ (i < inst.noBatches ∧ k ∈ inst.outputs)) ∧
    (∀ (a : BatchAssign I O) (i : Nat) (k : I),
      batchConstraintSat inst a (BatchConstraint.inputDuration i k) ↔
        (a.A_I i k = true → a.D_INPUT i = inst.tIn k)) ∧
    (∀ (a : BatchAssign I O) (i : Nat) (k : O),
      batchConstraintSat inst a (BatchConstraint.outputDuration i k) ↔
        (a.A_O i k = true → a.D_INPUT i = inst.tOut k)) ∧
    (∀ (a : BatchAssign I O) (i : Nat) (k : I), a.A_I i k = false →
      batchConstraintSat inst a (BatchConstraint.inputDuration i k)) ∧
    (∀ (a : BatchAssign I O) (i : Nat) (k : O), a.A_O i k = false →
      batchConstraintSat inst a (BatchConstraint.outputDuration i k)) ∧
    (∀ a : BatchAssign I O, satisfiesBatchModel inst a →
      ∀ i, i < inst.noBatches → ∀ k, k ∈ inst.inputs → ∀ q, q ∈ inst.outputs →
        a.A_I i k = true → a.A_O i q = true → inst.tIn k = inst.tOut q) := by
  have hmem1 : ∀ (i : Nat) (k : I),
      (BatchConstraint.inputDuration i k : BatchConstraint I O) ∈
        buildBatchConstraints inst ↔ (i < inst.noBatches ∧ k ∈ inst.inputs) := by
    intro i k
    unfold buildBatchConstraints
    simp only [List.mem_append, List.mem_map, List.mem_range, mem_allTasks,
      List.mem_cons, List.not_mem_nil, List.mem_singleton, or_false]
    constructor
    · rintro ((((⟨u, -, he⟩ | ⟨u, -, he⟩) |
          ⟨l, ⟨u, hu, rfl⟩, hx⟩) | ⟨l, ⟨u, hu, rfl⟩, hx⟩) | he)
      · exact BatchConstraint.noConfusion he
      · exact BatchConstraint.noConfusion he
      · rcases List.mem_append.1 hx with hx | hx
        · obtain ⟨w, hw, he⟩ := List.mem_map.1 hx
          obtain ⟨rfl, rfl⟩ : u = i ∧ w = k := by
            cases he
            exact ⟨rfl, rfl⟩
          exact ⟨hu, hw⟩
        · obtain ⟨w, -, he⟩ := List.mem_map.1 hx
          exact BatchConstraint.noConfusion he
      · rcases List.mem_cons.1 hx with he | hx2
        · exact BatchConstraint.noConfusion he
        · exact BatchConstraint.noConfusion (List.mem_singleton.1 hx2)
      · exact BatchConstraint.noConfusion he
    · rintro ⟨hi, hk⟩
      refine Or.inl (Or.inl (Or.inr ⟨_, ⟨i, hi, rfl⟩, ?_⟩))
      exact List.mem_append.2 (Or.inl (List.mem_map.2 ⟨k, hk, rfl⟩))
  have hmem2 : ∀ (i : Nat) (k : O),
      (BatchConstraint.outputDuration i k : BatchConstraint I O) ∈
        buildBatchConstraints inst ↔ (i < inst.noBatches ∧ k ∈ inst.outputs) := by
    intro i k
    unfold buildBatchConstraints
    simp only [List.mem_append, List.mem_map, List.mem_range, mem_allTasks,
      List.mem_cons, List.not_mem_nil, List.mem_singleton, or_false]
    constructor
    · rintro ((((⟨u, -, he⟩ | ⟨u, -, he⟩) |
          ⟨l, ⟨u, hu, rfl⟩, hx⟩) | ⟨l, ⟨u, hu, rfl⟩, hx⟩) | he)
      · exact BatchConstraint.noConfusion he
      · exact BatchConstraint.noConfusion he
      · rcases List.mem_append.1 hx with hx | hx
        · obtain ⟨w, -, he⟩ := List.mem_map.1 hx
          exact BatchConstraint.noConfusion he
        · obtain ⟨w, hw, he⟩ := List.mem_map.1 hx
          obtain ⟨rfl, rfl⟩ : u = i ∧ w = k := by
            cases he
            exact ⟨rfl, rfl⟩
          exact ⟨hu, hw⟩
      · rcases List.mem_cons.1 hx with he | hx2
        · exact BatchConstraint.noConfusion he
        · exact BatchConstraint.noConfusion (List.mem_singleton.1 hx2)
      · exact BatchConstraint.noConfusion he
    · rintro ⟨hi, hk⟩
      refine Or.inl (Or.inl (Or.inr ⟨_, ⟨i, hi, rfl⟩, ?_⟩))
      exact List.mem_append.2 (Or.inr (List.mem_map.2 ⟨k, hk, rfl⟩))
  refine ⟨hmem1, hmem2, fun a i k => Iff.rfl, fun a i k => Iff.rfl, ?_, ?_, ?_⟩
  · intro a i k hf htrue
    rw [hf] at htrue
    exact Bool.noConfusion htrue
  · intro a i k hf htrue
    rw [hf] at htrue
    exact Bool.noConfusion htrue
  · intro a hsat i hi k hk q hq hik hiq
    have e1 := hsat.2 _ ((hmem1 i k).2 ⟨hi, hk⟩)
    have e2 := hsat.2 _ ((hmem2 i q).2 ⟨hi, hq⟩)
    simp only [batchConstraintSat] at e1 e2
    rw [← e1 hik, ← e2 hiq]

/-- C10: the minimized objective of the batch builder is the buffer end time
of the single batch with the largest index, not the maximum over batches;
the builder chains each batch's stages (`S_BUFFER[i] == E_INPUT[i]`,
`S_OUTPUT[i] == E_BUFFER[i]`) but a satisfying assignment can give an
earlier batch a buffer end time exceeding the objective value: on the
two-batch instance `c10Instance`, `c10Assign` satisfies the whole model with
objective `E_BUFFER[1] = 2` while `E_BUFFER[0] = 11`. -/
theorem objective_is_last_batch_buffer_end :
    (∀ (I O : Type) (inst : BatchInstance I O) (a : BatchAssign I O),
      batchObjective inst a = a.E_BUFFER (inst.noBatches - 1)) ∧
    (∀ (I O : Type) (inst : BatchInstance I O) (a : BatchAssign I O),
      satisfiesBatchModel inst a → ∀ i, i < inst.noBatches →
        a.S_BUFFER i = a.E_INPUT i ∧ a.S_OUTPUT i = a.E_BUFFER i) ∧
    satisfiesBatchModel c10Instance c10Assign ∧
    batchObjective c10Instance c10Assign = 2 ∧
    c10Assign.E_BUFFER 0 = 11 ∧
    maxBufferEnd c10Instance c10Assign = 11 := by
  refine ⟨fun I O inst a => rfl, ?_, by decide, by decide, by decide, by decide⟩
  intro I O inst a hsat i hi
  have hb : (BatchConstraint.bufferAfterInput i : BatchConstraint I O) ∈
      buildBatchConstraints inst := by
    unfold buildBatchConstraints
    refine List.mem_append.2 (Or.inl (List.mem_append.2 (Or.inr ?_)))
    refine mem_allTasks.2 ⟨_, List.mem_map.2 ⟨i, List.mem_range.2 hi, rfl⟩, ?_⟩
    exact List.mem_cons.2 (Or.inl rfl)
  have ho : (BatchConstraint.outputAfterBuffer i : BatchConstraint I O) ∈
      buildBatchConstraints inst := by
    unfold buildBatchConstraints
    refine List.mem_append.2 (Or.inl (List.mem_append.2 (Or.inr ?_)))
    refine mem_allTasks.2 ⟨_, List.mem_map.2 ⟨i, List.mem_range.2 hi, rfl⟩, ?_⟩
    exact List.mem_cons.2 (Or.inr (List.mem_singleton.2 rfl))
  exact ⟨hsat.2 _ hb, hsat.2 _ ho⟩

/-! ## Claim theorems for solution enumeration -/

theorem enumerate_eq_take {α : Type} (K : Nat) :
    ∀ (sols : List α) (c : Nat), c < K → enumerate K sols c = sols.take (K - c) := by
  intro sols
  induction sols with
  | nil => intro c hc; simp [enumerate]
  | cons s rest ih =>
    intro c hc
    rw [enumerate]
    by_cases hstop : K ≤ c + 1
    · have h1 : K - c = 1 := by omega
      simp [onSolutionCallback, hstop, h1]
    · have h2 : K - c = (K - (c + 1)) + 1 := by omega
      have h3 : ¬(decide (K ≤ c + 1) = true) := by simp [hstop]
      simp only [onSolutionCallback, if_neg h3, ih (c + 1) (by omega), h2,
        List.take_succ_cons]

/-- C9 as stated is false at solution limit 0: the limit check runs inside
the callback, which the oracle only invokes once a solution exists, so with
`K = 0` one solution is still emitted and processed instead of none. -/
theorem enumeration_limit_zero_still_emits :
    enumerate 0 [0, 1, 2] 0 = [0] ∧ enumerate 0 [0, 1, 2] 0 ≠ List.take 0 [0, 1, 2] := by
  refine ⟨by decide, by decide⟩

/-- C9 amended: for any solution limit `K ≥ 1`, the enumeration emits exactly
the first `min(K, number of discovered solutions)` solutions: the callback
issues `StopSearch` the moment its count reaches `K` and no further solution
is emitted or processed afterward. -/
theorem enumeration_stops_at_limit {α : Type} (K : Nat) (sols : List α)
    (h : 1 ≤ K) : enumerate K sols 0 = sols.take K := by
  have h2 := enumerate_eq_take K sols 0 (by omega)
  simpa using h2

theorem enumeration_stops_at_limit_witness :
    enumerate 5 [0, 1, 2, 3, 4, 5, 6, 7] 0 = [0, 1, 2, 3, 4] := by
  rw [enumeration_stops_at_limit 5 [0, 1, 2, 3, 4, 5, 6, 7] (by decide)]
  decide

end ORTools

